import Mathlib

/-!
Verification of the transition-reconstruction core of `src/transitions.py`
(`JiraAPI.get_transitions`).

The embedding is shallow.  Parsed timestamps are modelled as integers
counting microseconds on an absolute time line: an aware Python
`datetime` (as produced by `strptime` with an `%f` fraction and a `%z`
offset) is internally an exact whole number of microseconds, and
`datetime` subtraction and comparison are exact on that scale.  A
duration is the rational number of fractional days
(`timedelta.total_seconds() / (24 * 3600)`), i.e. the microsecond
difference divided by `86400000000`.  Python dictionaries are modelled as
association lists that keep insertion order and hold at most one binding
per key, exactly like a `dict`.

Two layers are embedded:

* the *parsed* layer (`get_transitions`): inputs carry already-parsed
  timestamps and present author names, mirroring the happy path of the
  Python code;
* the *raw* layer (`get_transitionsRaw`): inputs carry raw timestamp
  strings and optional display names, and the function is `Option`-valued,
  mirroring exactly which dictionary accesses and `strptime` calls the
  Python code performs (an exception there makes the whole call fail).
-/

/-- A single field mutation inside a changelog entry
(`items` element: keys `field`, `fromString`, `toString`). -/
structure FieldChange where
  field : String
  fromString : String
  toString : String
deriving DecidableEq

/-- A changelog entry (`histories` element): its author's display name,
its parsed `created` timestamp (microseconds), and its `items`. -/
structure ChangelogEntry where
  author : String
  created : ℤ
  items : List FieldChange
deriving DecidableEq

/-- An input issue record: `key`, the creator's display name
(`fields.creator.displayName`), the parsed creation timestamp
(`fields.created`, microseconds) and the changelog entries
(`changelog.histories`). -/
structure IssueRecord where
  key : String
  creator : String
  created : ℤ
  histories : List ChangelogEntry
deriving DecidableEq

/-- One reconstructed transition event, as built by `get_transitions`
(the Python dict with keys `author`, `timestamp`, `step`, `from`, `to`
and, once back-filled, possibly `duration`; `from` is a Lean keyword, so
the two state labels are called `fromState` and `toState` here). -/
structure TransitionEvent where
  author : String
  timestamp : ℤ
  step : Nat
  fromState : String
  toState : String
  duration : Option ℚ
deriving DecidableEq

/-- Number of `items` entries of a changelog entry whose `field` is
`"status"` — the number of events the inner loop emits for that entry. -/
def countStatus (its : List FieldChange) : Nat :=
  (its.filter (fun it => it.field == "status")).length

/-- Total number of status field changes over a whole changelog. -/
def statusCount (hs : List ChangelogEntry) : Nat :=
  (hs.map (fun c => countStatus c.items)).sum

/-- The events the inner `for items in change["items"]` loop emits for one
changelog entry, threading the running `step` counter: one event per item
whose `field` is `"status"`, the counter incremented once per such item. -/
def itemEvents (author : String) (ts : ℤ) : List FieldChange → Nat → List TransitionEvent
  | [], _ => []
  | it :: rest, n =>
    if it.field == "status" then
      ⟨author, ts, n, it.fromString, it.toString, none⟩ :: itemEvents author ts rest (n + 1)
    else
      itemEvents author ts rest n

/-- The events the `for change in changelog["histories"]` loop emits,
starting the running counter at `n`. -/
def histEvents : List ChangelogEntry → Nat → List TransitionEvent
  | [], _ => []
  | c :: rest, n =>
    itemEvents c.author c.created c.items n ++ histEvents rest (n + countStatus c.items)

/-- All events appended for one issue record: the synthetic step-0
`"Create"` event followed by the status-change events, counter starting
at 1. -/
def recordEvents (issue : IssueRecord) (first_step : String) : List TransitionEvent :=
  ⟨issue.creator, issue.created, 0, "Create", first_step, none⟩ :: histEvents issue.histories 1

/-- The predecessor test of the back-fill scan:
`inner_step["to"] == previous_state and inner_step["step"] + 1 == step_count`. -/
def matchesEvent (p e : TransitionEvent) : Bool :=
  p.toState == e.fromState && p.step + 1 == e.step

/-- The predecessor the back-fill scan ends up using for `e`: the inner
`for` loop has no `break`, so each successive match overwrites the
previous one and the *last* matching event of the list wins. -/
def lastMatch (l : List TransitionEvent) (e : TransitionEvent) : Option TransitionEvent :=
  l.foldl (fun acc p => if matchesEvent p e then some p else acc) none

/-- The duration value written for a predecessor timestamp `pts` and a
current timestamp `ets` (microseconds): the difference clamped at zero,
converted to fractional days (`duration.total_seconds() / (24 * 3600)`,
i.e. microseconds divided by `86400000000`). -/
def durationDays (pts ets : ℤ) : ℚ :=
  mkRat (if pts < ets then ets - pts else 0) 86400000000

/-- The back-fill update of one event against the full list `l`. -/
def backfillEvent (l : List TransitionEvent) (e : TransitionEvent) : TransitionEvent :=
  match lastMatch l e with
  | some p => { e with duration := some (durationDays p.timestamp e.timestamp) }
  | none => e

/-- The duration back-fill pass over a per-key event list: every event is
updated against the whole list (the scan only reads the `to`, `step` and
`timestamp` fields, which the pass never changes, so the in-place Python
update equals this map). -/
def backfill (l : List TransitionEvent) : List TransitionEvent :=
  l.map (backfillEvent l)

/-- `dict` lookup on an insertion-ordered association list. -/
def alistFind {α : Type} (m : List (String × α)) (k : String) : Option α :=
  (m.find? (fun kv => kv.1 == k)).map (fun kv => kv.2)

/-- `dict` write: replace the binding in place if the key is present,
otherwise append a new binding at the end. -/
def alistSet {α : Type} : List (String × α) → String → α → List (String × α)
  | [], k, v => [(k, v)]
  | kv :: rest, k, v =>
    if kv.1 == k then (k, v) :: rest else kv :: alistSet rest k v

/-- The body of the outer `for issue in issues` loop: ensure the key is
bound, append the issue's events to the key's list, then run the
duration back-fill over that (whole) list. -/
def processIssue (first_step : String) (results : List (String × List TransitionEvent))
    (issue : IssueRecord) : List (String × List TransitionEvent) :=
  let cur := (alistFind results issue.key).getD []
  alistSet results issue.key (backfill (cur ++ recordEvents issue first_step))

/-- `JiraAPI.get_transitions` on parsed input: fold the per-issue body
over a fresh empty result dictionary. -/
def get_transitions (issues : List IssueRecord) (first_step : String) :
    List (String × List TransitionEvent) :=
  issues.foldl (processIssue first_step) []

/-! ## The raw layer

Inputs as the JSON actually delivers them: timestamps are strings, display
names may be absent.  The functions below perform exactly the dictionary
accesses and `strptime` calls the Python code performs, in the same order;
any failure makes the whole call return `none` (the Python exception
propagating out of `get_transitions`). -/

/-- A raw changelog entry: the author's display name if the
`change["author"]["displayName"]` path exists, the raw `created` string,
and the `items`. -/
structure RawChangelogEntry where
  author : Option String
  created : String
  items : List FieldChange
deriving DecidableEq

/-- A raw issue record: `key`, the creator's display name if the
`issue["fields"]["creator"]["displayName"]` path exists, the raw
`fields.created` string and the changelog entries. -/
structure RawIssueRecord where
  key : String
  creator : Option String
  created : String
  histories : List RawChangelogEntry
deriving DecidableEq

/-- The inner `for items in change["items"]` loop on raw input: the
entry's author display name and `created` string are only demanded (and
the timestamp only parsed) when a `"status"` item is actually emitted —
for each such item, in dict-literal order: author first, then timestamp. -/
def rawItemEvents (parse : String → Option ℤ) (author : Option String) (created : String) :
    List FieldChange → Nat → Option (List TransitionEvent × Nat)
  | [], n => some ([], n)
  | it :: rest, n =>
    if it.field == "status" then do
      let a ← author
      let t ← parse created
      let (evs, n') ← rawItemEvents parse author created rest (n + 1)
      some (⟨a, t, n, it.fromString, it.toString, none⟩ :: evs, n')
    else
      rawItemEvents parse author created rest n

/-- The `for change in changelog["histories"]` loop on raw input. -/
def rawHistEvents (parse : String → Option ℤ) :
    List RawChangelogEntry → Nat → Option (List TransitionEvent)
  | [], _ => some []
  | c :: rest, n => do
    let (evs, n') ← rawItemEvents parse c.author c.created c.items n
    let more ← rawHistEvents parse rest n'
    some (evs ++ more)

/-- All events appended for one raw issue record: the step-0 event demands
the creator's display name and parses the creation timestamp
unconditionally, then the changelog is walked. -/
def rawRecordEvents (parse : String → Option ℤ) (issue : RawIssueRecord)
    (first_step : String) : Option (List TransitionEvent) := do
  let a ← issue.creator
  let t ← parse issue.created
  let evs ← rawHistEvents parse issue.histories 1
  some (⟨a, t, 0, "Create", first_step, none⟩ :: evs)

/-- The body of the outer loop on raw input. -/
def rawProcessIssue (parse : String → Option ℤ) (first_step : String)
    (results : List (String × List TransitionEvent)) (issue : RawIssueRecord) :
    Option (List (String × List TransitionEvent)) := do
  let evs ← rawRecordEvents parse issue first_step
  let cur := (alistFind results issue.key).getD []
  some (alistSet results issue.key (backfill (cur ++ evs)))

/-- `JiraAPI.get_transitions` on raw input: `none` exactly when the Python
call raises. -/
def get_transitionsRaw (parse : String → Option ℤ) (issues : List RawIssueRecord)
    (first_step : String) : Option (List (String × List TransitionEvent)) :=
  issues.foldlM (rawProcessIssue parse first_step) []

/-- An entry is well formed when, if it contains a `"status"` item at all,
its author display name is present and its timestamp parses. -/
abbrev entryOK (parse : String → Option ℤ) (c : RawChangelogEntry) : Prop :=
  (∃ it ∈ c.items, it.field = "status") → c.author.isSome ∧ (parse c.created).isSome

/-- An issue is well formed when its creator display name is present, its
creation timestamp parses, and every changelog entry is well formed. -/
abbrev issueOK (parse : String → Option ℤ) (i : RawIssueRecord) : Prop :=
  i.creator.isSome ∧ (parse i.created).isSome ∧ ∀ c ∈ i.histories, entryOK parse c

/-- The ways one raw issue makes the Python call raise: a missing creator
display name, an unparseable creation timestamp, or a changelog entry
that contains at least one `"status"` item and has a missing author
display name or an unparseable timestamp. -/
abbrev issueBad (parse : String → Option ℤ) (i : RawIssueRecord) : Prop :=
  i.creator = none ∨ parse i.created = none ∨
    ∃ c ∈ i.histories, (∃ it ∈ c.items, it.field = "status") ∧
      (c.author = none ∨ parse c.created = none)

/-- The parsed view of a raw changelog entry (defaults are only ever used
for entries without `"status"` items, which contribute no events). -/
def convEntry (parse : String → Option ℤ) (c : RawChangelogEntry) : ChangelogEntry :=
  ⟨c.author.getD "", (parse c.created).getD 0, c.items⟩

/-- The parsed view of a raw issue record. -/
def convIssue (parse : String → Option ℤ) (i : RawIssueRecord) : IssueRecord :=
  ⟨i.key, i.creator.getD "", (parse i.created).getD 0, i.histories.map (convEntry parse)⟩

/-! ## A model of `datetime.strptime(_, '%Y-%m-%dT%H:%M:%S.%f%z')`

This stdlib collaborator is not part of the repository source.
Modelled from the spec: the timestamp format `%Y-%m-%dT%H:%M:%S.%f%z` —
a four-digit year, month/day/hour/minute/second fields of one or two
digits validated against their ranges, a fraction of one to six digits,
and a UTC offset `±HHMM` (optionally `±HH:MM`, or `Z`), the whole string
consumed; the result is the absolute microsecond count of the denoted
instant (offsets wider than a day, like Python's `timezone` bound, and
calendar-invalid dates, like Python's `datetime` constructor, are
rejected).  Offsets with a seconds part, accepted by Python, are omitted:
they never occur in this data. -/

/-- The numeric value of a decimal digit character. -/
def digitVal (c : Char) : Option Nat :=
  if c.isDigit then some (c.toNat - 48) else none

/-- Read a one- or two-digit field: two digits are taken when their value
does not exceed `hi`, otherwise a single digit is taken (and the stray
digit then fails to match the following literal, as in Python's regex
backtracking). -/
def readField (hi : Nat) : List Char → Option (Nat × List Char)
  | [] => none
  | c :: rest =>
    match digitVal c with
    | none => none
    | some d1 =>
      match rest with
      | c2 :: rest2 =>
        match digitVal c2 with
        | some d2 => if 10 * d1 + d2 ≤ hi then some (10 * d1 + d2, rest2) else some (d1, rest)
        | none => some (d1, rest)
      | [] => some (d1, rest)

/-- Read exactly four digits (the `%Y` field). -/
def readYear : List Char → Option (Nat × List Char)
  | a :: b :: c :: d :: rest => do
    let x ← digitVal a
    let y ← digitVal b
    let z ← digitVal c
    let w ← digitVal d
    some (1000 * x + 100 * y + 10 * z + w, rest)
  | _ => none

/-- Consume one expected literal character. -/
def lit (ch : Char) : List Char → Option (List Char)
  | [] => none
  | c :: rest => if c = ch then some rest else none

/-- Greedily read up to six fraction digits. -/
def readFracAux : List Char → Nat → Nat → Nat × Nat × List Char
  | [], acc, cnt => (acc, cnt, [])
  | c :: rest, acc, cnt =>
    if cnt < 6 then
      match digitVal c with
      | some d => readFracAux rest (10 * acc + d) (cnt + 1)
      | none => (acc, cnt, c :: rest)
    else (acc, cnt, c :: rest)

/-- Read the `%f` field (one to six digits), scaled to microseconds. -/
def readFrac (cs : List Char) : Option (Nat × List Char) :=
  match readFracAux cs 0 0 with
  | (_, 0, _) => none
  | (v, cnt, rest) => some (v * 10 ^ (6 - cnt), rest)

/-- Drop an optional colon between the offset's hours and minutes. -/
def skipColon : List Char → List Char
  | ':' :: r => r
  | r => r

/-- Read the two minute digits of a `±HHMM` offset given its sign and
hours, producing the signed offset in seconds, which must be smaller
than a day in magnitude. -/
def readOffsetMin (pos : Bool) (hh : Nat) : List Char → Option (ℤ × List Char)
  | x :: y :: rest => do
    let m1 ← digitVal x
    let m2 ← digitVal y
    let total := hh * 3600 + (10 * m1 + m2) * 60
    if total < 86400 then some (if pos then (total : ℤ) else -(total : ℤ), rest) else none
  | _ => none

/-- Read the `%z` field: `Z`, or a sign, two hour digits, an optional
colon and two minute digits. -/
def readOffset : List Char → Option (ℤ × List Char)
  | [] => none
  | 'Z' :: rest => some (0, rest)
  | c :: a :: b :: rest => do
    let h1 ← digitVal a
    let h2 ← digitVal b
    if c = '+' ∨ c = '-' then readOffsetMin (c = '+') (10 * h1 + h2) (skipColon rest)
    else none
  | _ => none

/-- Leap year of the proleptic Gregorian calendar. -/
def isLeap (y : Nat) : Bool :=
  y % 4 == 0 && (y % 100 != 0 || y % 400 == 0)

/-- Days in a month. -/
def daysInMonth (y m : Nat) : Nat :=
  if m == 2 then (if isLeap y then 29 else 28)
  else if m == 4 || m == 6 || m == 9 || m == 11 then 30
  else 31

/-- Days from 1970-01-01 to the given civil date (standard era-based
conversion). -/
def daysFromCivil (y m d : Nat) : ℤ :=
  let y2 : ℤ := if m ≤ 2 then (y : ℤ) - 1 else y
  let era : ℤ := y2 / 400
  let yoe : ℤ := y2 - era * 400
  let mp : Nat := (m + 9) % 12
  let doy : ℤ := ((153 * mp + 2) / 5 : Nat) + (d : ℤ) - 1
  let doe : ℤ := yoe * 365 + yoe / 4 - yoe / 100 + doy
  era * 146097 + doe - 719468

/-- The `%Y-%m-%d` prefix of the format. -/
def parseYMD (cs : List Char) : Option (Nat × Nat × Nat × List Char) := do
  let (y, cs1) ← readYear cs
  let cs2 ← lit '-' cs1
  let (mo, cs3) ← readField 12 cs2
  let cs4 ← lit '-' cs3
  let (d, cs5) ← readField 31 cs4
  some (y, mo, d, cs5)

/-- The `T%H:%M:%S` middle of the format. -/
def parseHMS (cs : List Char) : Option (Nat × Nat × Nat × List Char) := do
  let cs0 ← lit 'T' cs
  let (hh, cs1) ← readField 23 cs0
  let cs2 ← lit ':' cs1
  let (mi, cs3) ← readField 59 cs2
  let cs4 ← lit ':' cs3
  let (ss, cs5) ← readField 61 cs4
  some (hh, mi, ss, cs5)

/-- The `.%f%z` tail of the format. -/
def parseTail (cs : List Char) : Option (Nat × ℤ × List Char) := do
  let cs0 ← lit '.' cs
  let (us, cs1) ← readFrac cs0
  let (off, cs2) ← readOffset cs1
  some (us, off, cs2)

/-- The `strptime` model: parse the whole string under the format above
and return the instant as microseconds since 1970-01-01T00:00:00+0000. -/
def parseTs (s : String) : Option ℤ := do
  let (y, mo, d, cs1) ← parseYMD s.data
  let (hh, mi, ss, cs2) ← parseHMS cs1
  let (us, off, cs3) ← parseTail cs2
  if cs3 = [] ∧ 1 ≤ y ∧ 1 ≤ mo ∧ 1 ≤ d ∧ d ≤ daysInMonth y mo ∧ ss ≤ 59 then
    some ((daysFromCivil y mo d * 86400 + (hh : ℤ) * 3600 + (mi : ℤ) * 60 + (ss : ℤ)) * 1000000
      + (us : ℤ) - off * 1000000)
  else none

/-! ## Helper definitions for the statements and proofs -/

/-- What one key's list looks like after its records have been processed:
each record with that key appended its events and re-ran the back-fill
over the whole list.  Records with other keys never touch this list, so
folding over just the key's records reproduces `results[key]`. -/
def keyFold (first_step : String) (l : List IssueRecord) : List TransitionEvent :=
  l.foldl (fun acc i => backfill (acc ++ recordEvents i first_step)) []

/-- The value `get_transitions` ends up binding to key `k`. -/
def keyResult (first_step k : String) (issues : List IssueRecord) :
    Option (List TransitionEvent) :=
  match issues.filter (fun i => i.key == k) with
  | [] => none
  | l => some (keyFold first_step l)

/-- Everything of an event except its duration (the back-fill writes only
`duration`, so this skeleton is fixed once an event is appended). -/
def skel (e : TransitionEvent) : String × ℤ × Nat × String × String :=
  (e.author, e.timestamp, e.step, e.fromState, e.toState)

/-- The per-list duration invariant established by the back-fill pass. -/
def DurOK (l : List TransitionEvent) : Prop :=
  ∀ e ∈ l,
    (∀ d, e.duration = some d →
      ∃ p ∈ l, p.toState = e.fromState ∧ p.step + 1 = e.step ∧
        d = durationDays p.timestamp e.timestamp) ∧
    (e.duration = none → ∀ p ∈ l, ¬(p.toState = e.fromState ∧ p.step + 1 = e.step))

/-- The attributes `__init__` stores on a `JiraAPI` instance (the header
dict and the verification setting; their construction is out-of-scope
glue). -/
structure JiraAPI where
  base_url : String
  headers : List (String × String)
  verify : Bool
deriving DecidableEq

/-- The `get_transitions` method as a state transformer on its instance:
the body reads no attribute of `self` and assigns none (its only writes
go to the fresh local `results` dict), so the instance state passes
through unchanged and the result depends only on the arguments. -/
def JiraAPI.get_transitions_call (api : JiraAPI) (issues : List IssueRecord)
    (first_step : String) : JiraAPI × List (String × List TransitionEvent) :=
  (api, get_transitions issues first_step)

/-- `get_transitions` paired with the input it consumed: the body only
reads the issue records (every access is a read of `issue[...]`,
`change[...]` or `items[...]`), so the input sequence comes back exactly
as supplied. -/
def get_transitions_frame (issues : List IssueRecord) (first_step : String) :
    List IssueRecord × List (String × List TransitionEvent) :=
  (issues, get_transitions issues first_step)

/-! ## Concrete sample inputs (the spec's scenarios) used by witnesses -/

/-- Scenario A: one issue, empty changelog. -/
def sampleIssueA : IssueRecord := ⟨"X-1", "Alice", 0, []⟩

/-- Scenario B: one issue, one status change one day after creation. -/
def sampleIssueB : IssueRecord :=
  ⟨"X-1", "Alice", 0, [⟨"Bob", 86400000000, [⟨"status", "Open", "Done"⟩]⟩]⟩

/-- Scenario C flavour: a status change out of a never-visited state. -/
def sampleIssueC : IssueRecord :=
  ⟨"X-1", "Alice", 0, [⟨"Bob", 86400000000, [⟨"status", "Weird", "Done"⟩]⟩]⟩

/-- A second record carrying the same key as `sampleIssueA`. -/
def sampleDupRecord : IssueRecord := ⟨"X-1", "Alice", 86400000000, []⟩

/-- A clock-skewed issue: the status change is stamped *before* the
creation it follows. -/
def sampleIssueSkew : IssueRecord :=
  ⟨"X-1", "Alice", 86400000000, [⟨"Bob", 0, [⟨"status", "Open", "Done"⟩]⟩]⟩

/-- A well-formed raw issue. -/
def sampleRawA : RawIssueRecord :=
  ⟨"X-1", some "Alice", "2024-01-01T00:00:00.000+0000", []⟩

/-- A raw issue whose only changelog entry has an unparseable timestamp
but no `"status"` item. -/
def sampleRawBadEntry : RawIssueRecord :=
  ⟨"X-1", some "Alice", "2024-01-01T00:00:00.000+0000",
    [⟨some "Bob", "not-a-timestamp", [⟨"priority", "Low", "High"⟩]⟩]⟩

/-- A raw issue with no creator display name. -/
def sampleRawNoCreator : RawIssueRecord :=
  ⟨"X-2", none, "2024-01-01T00:00:00.000+0000", []⟩

/-- A well-formed raw issue whose status change comes out of a state no
prior event went to. -/
def sampleRawOrphan : RawIssueRecord :=
  ⟨"X-1", some "Alice", "2024-01-01T00:00:00.000+0000",
    [⟨some "Bob", "2024-01-02T00:00:00.000+0000", [⟨"status", "Weird", "Done"⟩]⟩]⟩

/-- The event list `get_transitions` produces for `sampleIssueA`. -/
def sampleListA : List TransitionEvent := [⟨"Alice", 0, 0, "Create", "Open", none⟩]

/-- The event list `get_transitions` produces for `sampleIssueB`. -/
def sampleListB : List TransitionEvent :=
  [⟨"Alice", 0, 0, "Create", "Open", none⟩,
   ⟨"Bob", 86400000000, 1, "Open", "Done", some 1⟩]

/-- `sampleListB`'s step-1 event, whose duration is exactly one day. -/
def sampleEventB : TransitionEvent := ⟨"Bob", 86400000000, 1, "Open", "Done", some 1⟩

/-- The event list `get_transitions` produces for `sampleIssueSkew`:
the step-1 event's timestamp precedes its predecessor's, so its duration
is clamped to zero. -/
def sampleListSkew : List TransitionEvent :=
  [⟨"Alice", 86400000000, 0, "Create", "Open", none⟩,
   ⟨"Bob", 0, 1, "Open", "Done", some 0⟩]

/-- `sampleListSkew`'s clamped step-1 event. -/
def sampleEventSkew : TransitionEvent := ⟨"Bob", 0, 1, "Open", "Done", some 0⟩

/-- The combined event list for the duplicate-key input
`[sampleIssueA, sampleDupRecord]`: two step-0 events. -/
def sampleListDup : List TransitionEvent :=
  [⟨"Alice", 0, 0, "Create", "Open", none⟩,
   ⟨"Alice", 86400000000, 0, "Create", "Open", none⟩]

-- Sanity checks on the spec's scenarios (one day = 86400000000 µs).

example : parseTs "2024-01-01T00:00:00.000+0000" = some 1704067200000000 := by decide

example :
    parseTs "2024-01-02T00:00:00.000+0000" = some (1704067200000000 + 86400000000) := by decide

example : parseTs "not-a-timestamp" = none := by decide

example : parseTs "2024-02-30T00:00:00.000+0000" = none := by decide

example :
    get_transitions [⟨"X-1", "Alice", 0, []⟩] "Open" =
      [("X-1", [⟨"Alice", 0, 0, "Create", "Open", none⟩])] := by decide

example :
    get_transitions
      [⟨"X-1", "Alice", 0, [⟨"Bob", 86400000000, [⟨"status", "Open", "Done"⟩]⟩]⟩] "Open" =
      [("X-1", [⟨"Alice", 0, 0, "Create", "Open", none⟩,
                ⟨"Bob", 86400000000, 1, "Open", "Done", some 1⟩])] := by decide

/-! ## Association-list lemmas -/

theorem alistFind_cons {α : Type} (kv : String × α) (m : List (String × α)) (k : String) :
    alistFind (kv :: m) k = if kv.1 == k then some kv.2 else alistFind m k := by
  by_cases h : kv.1 == k
  · simp [alistFind, List.find?_cons_of_pos, h]
  · simp only [Bool.not_eq_true] at h
    simp [alistFind, List.find?_cons_of_neg, h]

theorem alistFind_set_self {α : Type} (m : List (String × α)) (k : String) (v : α) :
    alistFind (alistSet m k v) k = some v := by
  induction m with
  | nil => simp [alistSet, alistFind_cons]
  | cons kv rest ih =>
    by_cases h : kv.1 == k
    · simp [alistSet, h, alistFind_cons]
    · simp [alistSet, h, alistFind_cons, ih]

theorem alistFind_set_ne {α : Type} (m : List (String × α)) (k v k')
    (hne : k' ≠ k) : alistFind (alistSet m k v) k' = alistFind m k' := by
  induction m with
  | nil =>
    simp [alistSet, alistFind_cons, alistFind]
    exact fun h => absurd h.symm hne
  | cons kv rest ih =>
    by_cases h : kv.1 == k
    · rw [beq_iff_eq] at h
      simp only [alistSet, h, beq_self_eq_true, if_true, alistFind_cons]
      have h1 : (k == k') = false := by
        simpa using fun hc => hne hc.symm
      have h2 : (kv.1 == k') = false := by
        simpa [h] using fun hc => hne hc.symm
      simp [h1, h2]
    · simp only [alistSet, h, if_false, alistFind_cons, Bool.false_eq_true]
      rw [ih]

theorem mem_alistSet {α : Type} (m : List (String × α)) (k : String) (v : α)
    (k' : String) (l : α) (hmem : (k', l) ∈ alistSet m k v) :
    (k' = k ∧ l = v) ∨ (k', l) ∈ m := by
  induction m with
  | nil =>
    simp [alistSet] at hmem
    exact Or.inl hmem
  | cons kv rest ih =>
    by_cases h : kv.1 == k
    · simp only [alistSet, h, if_true] at hmem
      rcases List.mem_cons.mp hmem with h1 | h1
      · exact Or.inl ⟨congrArg Prod.fst h1, congrArg Prod.snd h1⟩
      · exact Or.inr (List.mem_cons_of_mem _ h1)
    · simp only [alistSet, h, Bool.false_eq_true, if_false] at hmem
      rcases List.mem_cons.mp hmem with h1 | h1
      · exact Or.inr (h1 ▸ List.mem_cons_self _ _)
      · rcases ih h1 with h2 | h2
        · exact Or.inl h2
        · exact Or.inr (List.mem_cons_of_mem _ h2)

theorem keys_alistSet {α : Type} (m : List (String × α)) (k : String) (v : α) (k' : String) :
    k' ∈ (alistSet m k v).map Prod.fst ↔ k' = k ∨ k' ∈ m.map Prod.fst := by
  induction m with
  | nil => simp [alistSet, eq_comm]
  | cons kv rest ih =>
    by_cases h : kv.1 == k
    · rw [beq_iff_eq] at h
      simp [alistSet, h, eq_comm]
    · simp only [alistSet, h, Bool.false_eq_true, if_false, List.map_cons, List.mem_cons, ih]
      tauto

theorem nodup_keys_alistSet {α : Type} (m : List (String × α)) (k : String) (v : α)
    (hnd : (m.map Prod.fst).Nodup) : ((alistSet m k v).map Prod.fst).Nodup := by
  induction m with
  | nil => simp [alistSet]
  | cons kv rest ih =>
    rw [List.map_cons, List.nodup_cons] at hnd
    by_cases h : kv.1 == k
    · rw [beq_iff_eq] at h
      simp only [alistSet, h, beq_self_eq_true, if_true, List.map_cons, List.nodup_cons]
      exact ⟨h ▸ hnd.1, hnd.2⟩
    · simp only [alistSet, h, Bool.false_eq_true, if_false, List.map_cons, List.nodup_cons]
      refine ⟨fun hc => ?_, ih hnd.2⟩
      rcases (keys_alistSet rest k v kv.1).mp hc with h1 | h1
      · rw [h1] at h
        simp at h
      · exact hnd.1 h1

theorem mem_of_alistFind {α : Type} (m : List (String × α)) (k : String) (l : α)
    (hf : alistFind m k = some l) : (k, l) ∈ m := by
  induction m with
  | nil => simp [alistFind] at hf
  | cons kv rest ih =>
    rw [alistFind_cons] at hf
    by_cases h : kv.1 == k
    · rw [beq_iff_eq] at h
      simp only [h, beq_self_eq_true, if_true, Option.some.injEq] at hf
      have : kv = (k, l) := by
        cases kv
        simp only at h hf
        simp [h, hf]
      exact this ▸ List.mem_cons_self _ _
    · simp only [h, Bool.false_eq_true, if_false] at hf
      exact List.mem_cons_of_mem _ (ih hf)

theorem alistFind_of_mem_nodup {α : Type} (m : List (String × α)) (k : String) (l : α)
    (hnd : (m.map Prod.fst).Nodup) (hmem : (k, l) ∈ m) : alistFind m k = some l := by
  induction m with
  | nil => simp at hmem
  | cons kv rest ih =>
    rw [List.map_cons, List.nodup_cons] at hnd
    rcases List.mem_cons.mp hmem with h1 | h1
    · rw [← h1, alistFind_cons]
      simp
    · have hne : kv.1 ≠ k := by
        intro hc
        exact hnd.1 (hc ▸ List.mem_map.mpr ⟨(k, l), h1, rfl⟩)
      rw [alistFind_cons, if_neg (by simpa using hne)]
      exact ih hnd.2 h1

theorem alistFind_isSome_iff {α : Type} (m : List (String × α)) (k : String) :
    (alistFind m k).isSome ↔ k ∈ m.map Prod.fst := by
  induction m with
  | nil => simp [alistFind]
  | cons kv rest ih =>
    rw [alistFind_cons]
    by_cases h : kv.1 == k
    · rw [beq_iff_eq] at h
      simp [h]
    · have hne : kv.1 ≠ k := by simpa using h
      simp only [h, Bool.false_eq_true, if_false, List.map_cons, List.mem_cons, ih]
      constructor
      · exact fun hx => Or.inr hx
      · rintro (hx | hx)
        · exact absurd hx.symm hne
        · exact hx

/-! ## Back-fill lemmas -/

theorem matchesEvent_iff (p e : TransitionEvent) :
    matchesEvent p e = true ↔ p.toState = e.fromState ∧ p.step + 1 = e.step := by
  simp [matchesEvent]

theorem lastMatch_aux_some (e : TransitionEvent) :
    ∀ (l : List TransitionEvent) (init : Option TransitionEvent) (p : TransitionEvent),
      l.foldl (fun acc q => if matchesEvent q e then some q else acc) init = some p →
      init = some p ∨ (p ∈ l ∧ matchesEvent p e = true) := by
  intro l
  induction l with
  | nil => exact fun init p h => Or.inl h
  | cons q rest ih =>
    intro init p h
    rcases ih _ p h with h1 | h1
    · by_cases hq : matchesEvent q e
      · simp only [hq, if_true, Option.some.injEq] at h1
        exact Or.inr ⟨h1 ▸ List.mem_cons_self _ _, h1 ▸ hq⟩
      · simp only [hq, if_false] at h1
        exact Or.inl h1
    · exact Or.inr ⟨List.mem_cons_of_mem _ h1.1, h1.2⟩

theorem lastMatch_aux_keep (e : TransitionEvent) :
    ∀ (l : List TransitionEvent) (init : Option TransitionEvent),
      (∀ p ∈ l, matchesEvent p e = false) →
      l.foldl (fun acc q => if matchesEvent q e then some q else acc) init = init := by
  intro l
  induction l with
  | nil => exact fun init _ => rfl
  | cons q rest ih =>
    intro init hall
    have hq := hall q (List.mem_cons_self _ _)
    simp only [List.foldl_cons, hq, Bool.false_eq_true, if_false]
    exact ih init fun p hp => hall p (List.mem_cons_of_mem _ hp)

theorem lastMatch_aux_none (e : TransitionEvent) :
    ∀ (l : List TransitionEvent) (init : Option TransitionEvent),
      l.foldl (fun acc q => if matchesEvent q e then some q else acc) init = none →
      init = none ∧ ∀ p ∈ l, matchesEvent p e = false := by
  intro l
  induction l with
  | nil => exact fun init h => ⟨h, by simp⟩
  | cons q rest ih =>
    intro init h
    rcases ih _ h with ⟨h1, h2⟩
    by_cases hq : matchesEvent q e
    · simp [hq] at h1
    · simp only [hq, if_false] at h1
      refine ⟨h1, fun p hp => ?_⟩
      rcases List.mem_cons.mp hp with rfl | hp'
      · simpa using hq
      · exact h2 p hp'

theorem lastMatch_some (l : List TransitionEvent) (e p : TransitionEvent)
    (h : lastMatch l e = some p) :
    p ∈ l ∧ p.toState = e.fromState ∧ p.step + 1 = e.step := by
  rcases lastMatch_aux_some e l none p h with h1 | h1
  · exact absurd h1 (by simp)
  · exact ⟨h1.1, (matchesEvent_iff p e).mp h1.2⟩

theorem lastMatch_none (l : List TransitionEvent) (e : TransitionEvent)
    (h : lastMatch l e = none) :
    ∀ p ∈ l, ¬(p.toState = e.fromState ∧ p.step + 1 = e.step) := by
  intro p hp hc
  have := (lastMatch_aux_none e l none h).2 p hp
  rw [(matchesEvent_iff p e).mpr hc] at this
  exact Bool.true_eq_false.mp this

theorem lastMatch_eq_none (l : List TransitionEvent) (e : TransitionEvent)
    (h : ∀ p ∈ l, ¬(p.toState = e.fromState ∧ p.step + 1 = e.step)) :
    lastMatch l e = none := by
  apply lastMatch_aux_keep
  intro p hp
  by_contra hc
  exact h p hp ((matchesEvent_iff p e).mp (by simpa using hc))

theorem backfillEvent_author (l : List TransitionEvent) (e : TransitionEvent) :
    (backfillEvent l e).author = e.author := by
  cases h : lastMatch l e <;> simp [backfillEvent, h]

theorem backfillEvent_timestamp (l : List TransitionEvent) (e : TransitionEvent) :
    (backfillEvent l e).timestamp = e.timestamp := by
  cases h : lastMatch l e <;> simp [backfillEvent, h]

theorem backfillEvent_step (l : List TransitionEvent) (e : TransitionEvent) :
    (backfillEvent l e).step = e.step := by
  cases h : lastMatch l e <;> simp [backfillEvent, h]

theorem backfillEvent_fromState (l : List TransitionEvent) (e : TransitionEvent) :
    (backfillEvent l e).fromState = e.fromState := by
  cases h : lastMatch l e <;> simp [backfillEvent, h]

theorem backfillEvent_toState (l : List TransitionEvent) (e : TransitionEvent) :
    (backfillEvent l e).toState = e.toState := by
  cases h : lastMatch l e <;> simp [backfillEvent, h]

theorem skel_backfillEvent (l : List TransitionEvent) (e : TransitionEvent) :
    skel (backfillEvent l e) = skel e := by
  simp [skel, backfillEvent_author, backfillEvent_timestamp, backfillEvent_step,
    backfillEvent_fromState, backfillEvent_toState]

theorem map_skel_backfill (l : List TransitionEvent) :
    (backfill l).map skel = l.map skel := by
  rw [backfill, List.map_map]
  exact List.map_congr_left fun e _ => skel_backfillEvent l e

theorem map_step_backfill (l : List TransitionEvent) :
    (backfill l).map (fun e => e.step) = l.map (fun e => e.step) := by
  rw [backfill, List.map_map]
  exact List.map_congr_left fun e _ => backfillEvent_step l e

/-! ## Duration-value lemmas -/

theorem durationDays_eq_div (pts ets : ℤ) :
    durationDays pts ets = ((if pts < ets then ets - pts else 0 : ℤ) : ℚ) / 86400000000 := by
  rw [durationDays, Rat.mkRat_eq_div]
  norm_num

theorem durationDays_eq_max (pts ets : ℤ) :
    durationDays pts ets = max ((ets : ℚ) - (pts : ℚ)) 0 / 86400000000 := by
  rw [durationDays_eq_div]
  congr 1
  split
  · rename_i h
    have h' : (pts : ℚ) < (ets : ℚ) := by exact_mod_cast h
    rw [max_eq_left (by linarith)]
    push_cast
    ring
  · rename_i h
    have h' : (ets : ℚ) ≤ (pts : ℚ) := by exact_mod_cast not_lt.mp h
    rw [max_eq_right (by linarith)]
    norm_num

theorem durationDays_nonneg (pts ets : ℤ) : 0 ≤ durationDays pts ets := by
  rw [durationDays_eq_max]
  positivity

theorem durationDays_clamp (pts ets : ℤ) (h : ets ≤ pts) : durationDays pts ets = 0 := by
  rw [durationDays, if_neg (not_lt.mpr h)]
  simp [Rat.mkRat_eq_div]

theorem durationDays_of_lt (pts ets : ℤ) (h : pts < ets) :
    durationDays pts ets = ((ets - pts : ℤ) : ℚ) / 86400000000 := by
  rw [durationDays_eq_div, if_pos h]

/-! ## Freshly appended events carry no duration -/

theorem itemEvents_duration (author : String) (ts : ℤ) :
    ∀ (its : List FieldChange) (n : Nat) (e : TransitionEvent),
      e ∈ itemEvents author ts its n → e.duration = none := by
  intro its
  induction its with
  | nil => intro n e h; simp [itemEvents] at h
  | cons it rest ih =>
    intro n e h
    by_cases hf : it.field == "status"
    · rw [itemEvents, if_pos hf] at h
      rcases List.mem_cons.mp h with rfl | h'
      · rfl
      · exact ih _ e h'
    · rw [itemEvents, if_neg hf] at h
      exact ih _ e h

theorem histEvents_duration :
    ∀ (hs : List ChangelogEntry) (n : Nat) (e : TransitionEvent),
      e ∈ histEvents hs n → e.duration = none := by
  intro hs
  induction hs with
  | nil => intro n e h; simp [histEvents] at h
  | cons c rest ih =>
    intro n e h
    rw [histEvents] at h
    rcases List.mem_append.mp h with h' | h'
    · exact itemEvents_duration _ _ _ _ e h'
    · exact ih _ e h'

theorem recordEvents_duration (issue : IssueRecord) (first_step : String)
    (e : TransitionEvent) (h : e ∈ recordEvents issue first_step) : e.duration = none := by
  rw [recordEvents] at h
  rcases List.mem_cons.mp h with rfl | h'
  · rfl
  · exact histEvents_duration _ _ e h'

/-! ## The back-fill pass establishes the duration invariant -/

theorem backfill_durOK (m : List TransitionEvent)
    (H : ∀ e ∈ m, e.duration.isSome →
      ∃ p ∈ m, p.toState = e.fromState ∧ p.step + 1 = e.step) :
    DurOK (backfill m) := by
  intro e' he'
  rcases List.mem_map.mp he' with ⟨e, he, rfl⟩
  cases hlm : lastMatch m e with
  | some p =>
    rcases lastMatch_some m e p hlm with ⟨hpmem, hpto, hpstep⟩
    have hbe : backfillEvent m e =
        { e with duration := some (durationDays p.timestamp e.timestamp) } := by
      simp [backfillEvent, hlm]
    constructor
    · intro d hd
      rw [hbe] at hd
      simp only [Option.some.injEq] at hd
      refine ⟨backfillEvent m p, List.mem_map.mpr ⟨p, hpmem, rfl⟩, ?_, ?_, ?_⟩
      · rw [backfillEvent_toState, hbe]
        exact hpto
      · rw [backfillEvent_step, hbe]
        exact hpstep
      · rw [backfillEvent_timestamp, hbe]
        exact hd.symm
    · intro hnone
      rw [hbe] at hnone
      simp at hnone
  | none =>
    have heq : backfillEvent m e = e := by rw [backfillEvent, hlm]
    rw [heq]
    constructor
    · intro d hd
      exfalso
      rcases H e he (by simp [hd]) with ⟨p, hp, hc⟩
      exact lastMatch_none m e hlm p hp hc
    · intro _ p' hp' hc
      rcases List.mem_map.mp hp' with ⟨p, hp, rfl⟩
      apply lastMatch_none m e hlm p hp
      rw [backfillEvent_toState] at hc
      rw [backfillEvent_step] at hc
      exact hc

theorem keyFold_durOK (first_step : String) (l : List IssueRecord) :
    DurOK (keyFold first_step l) := by
  suffices h : ∀ acc, DurOK acc →
      DurOK (l.foldl (fun acc i => backfill (acc ++ recordEvents i first_step)) acc) by
    exact h [] (by intro e he; simp at he)
  induction l with
  | nil => exact fun acc h => h
  | cons i rest ih =>
    intro acc hacc
    apply ih
    apply backfill_durOK
    intro e he hsome
    rcases List.mem_append.mp he with h' | h'
    · rcases (hacc e h').1 (e.duration.get hsome) (by simp) with ⟨p, hp, h1, h2, _⟩
      exact ⟨p, List.mem_append_left _ hp, h1, h2⟩
    · rw [recordEvents_duration _ _ e h'] at hsome
      simp at hsome

/-! ## Step-index structure of the emitted events -/

theorem range'_add_split (s a b : Nat) :
    List.range' s (a + b) = List.range' s a ++ List.range' (s + a) b := by
  have h := List.range'_append s a b 1
  rw [Nat.one_mul] at h
  rw [Nat.add_comm a b]
  exact h.symm

theorem countStatus_cons_pos (it : FieldChange) (rest : List FieldChange)
    (h : it.field == "status") : countStatus (it :: rest) = countStatus rest + 1 := by
  simp [countStatus, List.filter_cons, h]

theorem countStatus_cons_neg (it : FieldChange) (rest : List FieldChange)
    (h : ¬it.field == "status") : countStatus (it :: rest) = countStatus rest := by
  simp only [Bool.not_eq_true] at h
  simp [countStatus, List.filter_cons, h]

theorem itemEvents_map_step (author : String) (ts : ℤ) :
    ∀ (its : List FieldChange) (n : Nat),
      (itemEvents author ts its n).map (fun e => e.step) = List.range' n (countStatus its) := by
  intro its
  induction its with
  | nil => intro n; simp [itemEvents, countStatus]
  | cons it rest ih =>
    intro n
    by_cases hf : it.field == "status"
    · rw [itemEvents, if_pos hf, countStatus_cons_pos it rest hf, List.map_cons, ih,
        List.range'_succ]
    · rw [itemEvents, if_neg hf, countStatus_cons_neg it rest hf, ih]

theorem statusCount_cons (c : ChangelogEntry) (rest : List ChangelogEntry) :
    statusCount (c :: rest) = countStatus c.items + statusCount rest := by
  simp [statusCount]

theorem histEvents_map_step :
    ∀ (hs : List ChangelogEntry) (n : Nat),
      (histEvents hs n).map (fun e => e.step) = List.range' n (statusCount hs) := by
  intro hs
  induction hs with
  | nil => intro n; simp [histEvents, statusCount]
  | cons c rest ih =>
    intro n
    rw [histEvents, List.map_append, itemEvents_map_step, ih, statusCount_cons,
      range'_add_split]

theorem recordEvents_map_step (issue : IssueRecord) (first_step : String) :
    (recordEvents issue first_step).map (fun e => e.step) =
      List.range (1 + statusCount issue.histories) := by
  rw [recordEvents, List.map_cons, histEvents_map_step, List.range_eq_range',
    Nat.add_comm 1 (statusCount issue.histories), List.range'_succ]

/-! ## The per-key characterisation of the result -/

theorem keyResult_eq (fs k : String) (issues : List IssueRecord) :
    keyResult fs k issues =
      if issues.filter (fun i => i.key == k) = [] then none
      else some (keyFold fs (issues.filter (fun i => i.key == k))) := by
  cases h : issues.filter (fun i => i.key == k) with
  | nil => simp [keyResult, h]
  | cons a t => simp [keyResult, h]

theorem keyFold_append_record (fs : String) (l : List IssueRecord) (i : IssueRecord) :
    keyFold fs (l ++ [i]) = backfill (keyFold fs l ++ recordEvents i fs) := by
  simp [keyFold, List.foldl_append]

theorem keyFold_singleton (fs : String) (i : IssueRecord) :
    keyFold fs [i] = backfill (recordEvents i fs) := by
  simp [keyFold]

theorem get_transitions_invariant (fs : String) :
    ∀ (issues pre : List IssueRecord) (m : List (String × List TransitionEvent)),
      (m.map Prod.fst).Nodup →
      (∀ k, alistFind m k = keyResult fs k pre) →
      ((issues.foldl (processIssue fs) m).map Prod.fst).Nodup ∧
      ∀ k, alistFind (issues.foldl (processIssue fs) m) k = keyResult fs k (pre ++ issues) := by
  intro issues
  induction issues with
  | nil =>
    intro pre m hnd hfind
    refine ⟨hnd, fun k => ?_⟩
    rw [List.append_nil]
    exact hfind k
  | cons i rest ih =>
    intro pre m hnd hfind
    have hstep : ∀ k, alistFind (processIssue fs m i) k = keyResult fs k (pre ++ [i]) := by
      intro k
      by_cases hk : k = i.key
      · subst hk
        rw [processIssue, alistFind_set_self, keyResult_eq]
        have hfilter : (pre ++ [i]).filter (fun j => j.key == i.key) =
            pre.filter (fun j => j.key == i.key) ++ [i] := by
          rw [List.filter_append]
          simp
        rw [hfilter]
        have hne : pre.filter (fun j => j.key == i.key) ++ [i] ≠ [] := by simp
        rw [if_neg hne, keyFold_append_record]
        have hcur := hfind i.key
        rw [keyResult_eq] at hcur
        by_cases hp : pre.filter (fun j => j.key == i.key) = []
        · rw [if_pos hp] at hcur
          rw [hp, hcur]
          simp [keyFold]
        · rw [if_neg hp] at hcur
          rw [hcur]
          simp
      · rw [processIssue, alistFind_set_ne _ _ _ _ hk, hfind k, keyResult_eq, keyResult_eq]
        have hfilter : (pre ++ [i]).filter (fun j => j.key == k) =
            pre.filter (fun j => j.key == k) := by
          rw [List.filter_append]
          have : (i.key == k) = false := by
            simpa using fun hc => hk hc.symm
          simp [this]
        rw [hfilter]
    have hnd' : ((processIssue fs m i).map Prod.fst).Nodup := nodup_keys_alistSet _ _ _ hnd
    have := ih (pre ++ [i]) (processIssue fs m i) hnd' hstep
    rw [List.append_assoc] at this
    simpa using this

theorem get_transitions_find (issues : List IssueRecord) (fs k : String) :
    alistFind (get_transitions issues fs) k = keyResult fs k issues := by
  have h := get_transitions_invariant fs issues [] [] (by simp) (fun k => rfl)
  simpa [get_transitions] using h.2 k

theorem get_transitions_nodup_keys (issues : List IssueRecord) (fs : String) :
    ((get_transitions issues fs).map Prod.fst).Nodup := by
  have h := get_transitions_invariant fs issues [] [] (by simp) (fun k => rfl)
  simpa [get_transitions] using h.1

theorem get_transitions_value (issues : List IssueRecord) (fs k : String)
    (l : List TransitionEvent) (hmem : (k, l) ∈ get_transitions issues fs) :
    l = keyFold fs (issues.filter (fun i => i.key == k)) ∧
      issues.filter (fun i => i.key == k) ≠ [] := by
  have hf : alistFind (get_transitions issues fs) k = some l :=
    alistFind_of_mem_nodup _ _ _ (get_transitions_nodup_keys issues fs) hmem
  rw [get_transitions_find, keyResult_eq] at hf
  by_cases hp : issues.filter (fun i => i.key == k) = []
  · rw [if_pos hp] at hf
    cases hf
  · rw [if_neg hp] at hf
    exact ⟨(Option.some.injEq _ _ ▸ hf).symm, hp⟩

theorem get_transitions_durOK (issues : List IssueRecord) (fs k : String)
    (l : List TransitionEvent) (hmem : (k, l) ∈ get_transitions issues fs) : DurOK l := by
  rcases get_transitions_value issues fs k l hmem with ⟨rfl, _⟩
  exact keyFold_durOK fs _

theorem filter_key_of_nodup (issues : List IssueRecord) (issue : IssueRecord)
    (hnd : (issues.map (fun i => i.key)).Nodup) (hmem : issue ∈ issues) :
    issues.filter (fun i => i.key == issue.key) = [issue] := by
  induction issues with
  | nil => simp at hmem
  | cons i rest ih =>
    rw [List.map_cons, List.nodup_cons] at hnd
    rcases List.mem_cons.mp hmem with rfl | hmem'
    · rw [List.filter_cons, if_pos (by simp)]
      have hrest : rest.filter (fun j => j.key == issue.key) = [] := by
        rw [List.filter_eq_nil_iff]
        intro j hj hc
        exact hnd.1 (by
          rw [beq_iff_eq] at hc
          exact hc ▸ List.mem_map.mpr ⟨j, hj, rfl⟩)
      rw [hrest]
    · have hne : (i.key == issue.key) = false := by
        simp only [beq_eq_false_iff_ne, ne_eq]
        intro hc
        exact hnd.1 (hc ▸ List.mem_map.mpr ⟨issue, hmem', rfl⟩)
      rw [List.filter_cons, if_neg (by simp [hne])]
      exact ih hnd.2 hmem'

/-! ## Skeleton and step structure of a per-key list -/

theorem keyFold_aux_skel (fs : String) :
    ∀ (l : List IssueRecord) (acc : List TransitionEvent),
      ((l.foldl (fun acc i => backfill (acc ++ recordEvents i fs)) acc).map skel) =
        acc.map skel ++ l.flatMap (fun i => (recordEvents i fs).map skel) := by
  intro l
  induction l with
  | nil => intro acc; simp
  | cons i rest ih =>
    intro acc
    rw [List.foldl_cons, ih, map_skel_backfill, List.map_append, List.flatMap_cons,
      List.append_assoc]

theorem keyFold_skel (fs : String) (l : List IssueRecord) :
    (keyFold fs l).map skel = l.flatMap (fun i => (recordEvents i fs).map skel) := by
  rw [keyFold, keyFold_aux_skel]
  simp

theorem keyFold_aux_step (fs : String) :
    ∀ (l : List IssueRecord) (acc : List TransitionEvent),
      ((l.foldl (fun acc i => backfill (acc ++ recordEvents i fs)) acc).map fun e => e.step) =
        (acc.map fun e => e.step) ++
          l.flatMap (fun i => List.range (1 + statusCount i.histories)) := by
  intro l
  induction l with
  | nil => intro acc; simp
  | cons i rest ih =>
    intro acc
    rw [List.foldl_cons, ih, map_step_backfill, List.map_append, recordEvents_map_step,
      List.flatMap_cons, List.append_assoc]

theorem keyFold_step (fs : String) (l : List IssueRecord) :
    ((keyFold fs l).map fun e => e.step) =
      l.flatMap (fun i => List.range (1 + statusCount i.histories)) := by
  rw [keyFold, keyFold_aux_step]
  simp

theorem keyFold_singleton_step (fs : String) (i : IssueRecord) :
    ((keyFold fs [i]).map fun e => e.step) = List.range (1 + statusCount i.histories) := by
  rw [keyFold_step]
  simp

/-! ## The step-0 event survives the back-fill unchanged -/

theorem backfillEvent_step0 (l : List TransitionEvent) (e : TransitionEvent)
    (h : e.step = 0) : backfillEvent l e = e := by
  have hn : lastMatch l e = none := by
    apply lastMatch_eq_none
    intro p hp hc
    rw [h] at hc
    exact Nat.succ_ne_zero _ hc.2
  rw [backfillEvent, hn]

theorem backfill_recordEvents_head (issue : IssueRecord) (fs : String) :
    (backfill (recordEvents issue fs)).head? =
      some ⟨issue.creator, issue.created, 0, "Create", fs, none⟩ := by
  rw [recordEvents, backfill, List.map_cons, List.head?_cons,
    backfillEvent_step0 _ _ rfl]

/-! ## Raw layer: success refines the parsed layer -/

theorem any_status_iff (its : List FieldChange) :
    (its.any fun it => it.field == "status") = true ↔ ∃ it ∈ its, it.field = "status" := by
  simp [List.any_eq_true]

theorem rawItemEvents_eq_some (parse : String → Option ℤ) (author : Option String)
    (created : String) :
    ∀ (its : List FieldChange) (n : Nat),
      ((its.any fun it => it.field == "status") = true →
        author.isSome ∧ (parse created).isSome) →
      rawItemEvents parse author created its n =
        some (itemEvents (author.getD "") ((parse created).getD 0) its n,
          n + countStatus its) := by
  intro its
  induction its with
  | nil =>
    intro n _
    simp [rawItemEvents, itemEvents, countStatus]
  | cons it rest ih =>
    intro n h
    by_cases hf : it.field == "status"
    · have hs := h (by simp [List.any_cons, hf])
      rcases Option.isSome_iff_exists.mp hs.1 with ⟨a, ha⟩
      rcases Option.isSome_iff_exists.mp hs.2 with ⟨t, ht⟩
      rw [rawItemEvents, if_pos hf,
        ih (n + 1) (fun hany => h (by simp [List.any_cons, hany]))]
      rw [itemEvents, if_pos hf, countStatus_cons_pos it rest hf, ha, ht]
      simp [Nat.add_comm, Nat.add_assoc, Nat.add_left_comm]
    · rw [rawItemEvents, if_neg hf, itemEvents, if_neg hf, countStatus_cons_neg it rest hf]
      exact ih n fun hany => h (by simp [List.any_cons, hany])

theorem rawHistEvents_eq_some (parse : String → Option ℤ) :
    ∀ (hs : List RawChangelogEntry) (n : Nat),
      (∀ c ∈ hs, entryOK parse c) →
      rawHistEvents parse hs n = some (histEvents (hs.map (convEntry parse)) n) := by
  intro hs
  induction hs with
  | nil => intro n _; simp [rawHistEvents, histEvents]
  | cons c rest ih =>
    intro n h
    have hc : (c.items.any fun it => it.field == "status") = true →
        c.author.isSome ∧ (parse c.created).isSome := by
      intro hany
      exact h c (List.mem_cons_self _ _) ((any_status_iff c.items).mp hany)
    rw [rawHistEvents, rawItemEvents_eq_some parse c.author c.created c.items n hc]
    simp only [Option.bind_eq_bind, Option.some_bind]
    rw [ih (n + countStatus c.items) (fun d hd => h d (List.mem_cons_of_mem _ hd))]
    simp [histEvents, convEntry]

theorem rawRecordEvents_eq_some (parse : String → Option ℤ) (issue : RawIssueRecord)
    (fs : String) (h : issueOK parse issue) :
    rawRecordEvents parse issue fs = some (recordEvents (convIssue parse issue) fs) := by
  rcases h with ⟨h1, h2, h3⟩
  rcases Option.isSome_iff_exists.mp h1 with ⟨a, ha⟩
  rcases Option.isSome_iff_exists.mp h2 with ⟨t, ht⟩
  rw [rawRecordEvents, ha, ht, rawHistEvents_eq_some parse issue.histories 1 h3]
  simp [recordEvents, convIssue, ha, ht]

theorem rawProcessIssue_eq_some (parse : String → Option ℤ) (fs : String)
    (m : List (String × List TransitionEvent)) (issue : RawIssueRecord)
    (h : issueOK parse issue) :
    rawProcessIssue parse fs m issue = some (processIssue fs m (convIssue parse issue)) := by
  rw [rawProcessIssue, rawRecordEvents_eq_some parse issue fs h]
  simp [processIssue, convIssue]

theorem get_transitionsRaw_aux_some (parse : String → Option ℤ) (fs : String) :
    ∀ (issues : List RawIssueRecord) (m : List (String × List TransitionEvent)),
      (∀ i ∈ issues, issueOK parse i) →
      issues.foldlM (rawProcessIssue parse fs) m =
        some ((issues.map (convIssue parse)).foldl (processIssue fs) m) := by
  intro issues
  induction issues with
  | nil => intro m _; rfl
  | cons i rest ih =>
    intro m h
    rw [List.foldlM_cons, rawProcessIssue_eq_some parse fs m i (h i (List.mem_cons_self _ _))]
    simp only [Option.bind_eq_bind, Option.some_bind]
    rw [ih _ (fun j hj => h j (List.mem_cons_of_mem _ hj))]
    rfl

theorem get_transitionsRaw_eq_some (parse : String → Option ℤ)
    (issues : List RawIssueRecord) (fs : String) (h : ∀ i ∈ issues, issueOK parse i) :
    get_transitionsRaw parse issues fs =
      some (get_transitions (issues.map (convIssue parse)) fs) := by
  rw [get_transitionsRaw, get_transitionsRaw_aux_some parse fs issues [] h]
  rfl

/-! ## Raw layer: failure propagation -/

theorem rawItemEvents_none (parse : String → Option ℤ) (author : Option String)
    (created : String) :
    ∀ (its : List FieldChange) (n : Nat),
      (∃ it ∈ its, it.field = "status") →
      (author = none ∨ parse created = none) →
      rawItemEvents parse author created its n = none := by
  intro its
  induction its with
  | nil => intro n hex _; simp at hex
  | cons it rest ih =>
    intro n hex hbad
    by_cases hf : it.field == "status"
    · rw [rawItemEvents, if_pos hf]
      rcases hbad with hb | hb <;> simp [hb]
    · rw [rawItemEvents, if_neg hf]
      rcases hex with ⟨j, hj, hjs⟩
      rcases List.mem_cons.mp hj with rfl | hj'
      · exact absurd (by simp [hjs]) hf
      · exact ih n ⟨j, hj', hjs⟩ hbad

theorem rawHistEvents_none (parse : String → Option ℤ) :
    ∀ (hs : List RawChangelogEntry) (n : Nat),
      (∃ c ∈ hs, (∃ it ∈ c.items, it.field = "status") ∧
        (c.author = none ∨ parse c.created = none)) →
      rawHistEvents parse hs n = none := by
  intro hs
  induction hs with
  | nil => intro n hex; simp at hex
  | cons c rest ih =>
    intro n hex
    rcases hex with ⟨d, hd, hds⟩
    rcases List.mem_cons.mp hd with rfl | hd'
    · rw [rawHistEvents, rawItemEvents_none parse d.author d.created d.items n hds.1 hds.2]
      rfl
    · rw [rawHistEvents]
      cases hres : rawItemEvents parse c.author c.created c.items n with
      | none => rfl
      | some p =>
        simp only [hres, Option.bind_eq_bind, Option.some_bind]
        rw [ih p.2 ⟨d, hd', hds⟩]
        rfl

theorem rawRecordEvents_none (parse : String → Option ℤ) (issue : RawIssueRecord)
    (fs : String)
    (hbad : issue.creator = none ∨ parse issue.created = none ∨
      ∃ c ∈ issue.histories, (∃ it ∈ c.items, it.field = "status") ∧
        (c.author = none ∨ parse c.created = none)) :
    rawRecordEvents parse issue fs = none := by
  rcases hbad with hb | hb | hb
  · rw [rawRecordEvents, hb]
    rfl
  · rw [rawRecordEvents, hb]
    cases issue.creator <;> rfl
  · rw [rawRecordEvents]
    cases hc : issue.creator with
    | none => rfl
    | some a =>
      cases ht : parse issue.created with
      | none => rfl
      | some t =>
        simp only [Option.bind_eq_bind, Option.some_bind]
        rw [rawHistEvents_none parse issue.histories 1 hb]
        rfl

theorem rawProcessIssue_none (parse : String → Option ℤ) (fs : String)
    (m : List (String × List TransitionEvent)) (issue : RawIssueRecord)
    (hbad : issueBad parse issue) :
    rawProcessIssue parse fs m issue = none := by
  rw [rawProcessIssue, rawRecordEvents_none parse issue fs hbad]
  rfl

theorem get_transitionsRaw_aux_none (parse : String → Option ℤ) (fs : String) :
    ∀ (issues : List RawIssueRecord) (m : List (String × List TransitionEvent)),
      (∃ i ∈ issues, issueBad parse i) →
      issues.foldlM (rawProcessIssue parse fs) m = none := by
  intro issues
  induction issues with
  | nil => intro m hex; simp at hex
  | cons i rest ih =>
    intro m hex
    rcases hex with ⟨j, hj, hjb⟩
    rcases List.mem_cons.mp hj with rfl | hj'
    · rw [List.foldlM_cons, rawProcessIssue_none parse fs m j hjb]
      rfl
    · rw [List.foldlM_cons]
      cases hres : rawProcessIssue parse fs m i with
      | none => rfl
      | some m' =>
        simp only [Option.bind_eq_bind, Option.some_bind]
        exact ih m' ⟨j, hj', hjb⟩

theorem get_transitionsRaw_none (parse : String → Option ℤ)
    (issues : List RawIssueRecord) (fs : String)
    (hex : ∃ i ∈ issues, issueBad parse i) :
    get_transitionsRaw parse issues fs = none :=
  get_transitionsRaw_aux_none parse fs issues [] hex

/-! ## The claims -/

/-- Claim C1: for every issue in the result of `get_transitions` and
every event `E` in that issue's list (including the step-0 event), `E`
carries a duration if and only if some event `P` in the same list
satisfies `P.to = E.from` and `P.step = E.step - 1`; when such a `P`
exists, `E`'s duration equals `max(E.timestamp - P.timestamp, 0)`
expressed in fractional days; when no such `P` exists, `E` has no
duration.  A label match at the wrong step distance never produces a
duration. -/
theorem claim_C1 (issues : List IssueRecord) (fs k : String) (l : List TransitionEvent)
    (hl : (k, l) ∈ get_transitions issues fs) (e : TransitionEvent) (he : e ∈ l) :
    (e.duration.isSome ↔ ∃ p ∈ l, p.toState = e.fromState ∧ p.step + 1 = e.step) ∧
    ∀ d, e.duration = some d →
      ∃ p ∈ l, p.toState = e.fromState ∧ p.step + 1 = e.step ∧
        d = max ((e.timestamp : ℚ) - (p.timestamp : ℚ)) 0 / 86400000000 := by
  have hOK := get_transitions_durOK issues fs k l hl e he
  constructor
  · constructor
    · intro hsome
      rcases Option.isSome_iff_exists.mp hsome with ⟨d, hd⟩
      rcases hOK.1 d hd with ⟨p, hp, h1, h2, _⟩
      exact ⟨p, hp, h1, h2⟩
    · rintro ⟨p, hp, h1, h2⟩
      cases hd : e.duration with
      | none => exact absurd ⟨h1, h2⟩ (hOK.2 hd p hp)
      | some d => rfl
  · intro d hd
    rcases hOK.1 d hd with ⟨p, hp, h1, h2, h3⟩
    exact ⟨p, hp, h1, h2, by rw [h3, durationDays_eq_max]⟩

theorem claim_C1_witness :
    (("X-1", sampleListB) ∈ get_transitions [sampleIssueB] "Open") ∧
    (sampleEventB ∈ sampleListB) ∧
    ((sampleEventB.duration.isSome ↔
        ∃ p ∈ sampleListB, p.toState = sampleEventB.fromState ∧
          p.step + 1 = sampleEventB.step) ∧
      ∀ d, sampleEventB.duration = some d →
        ∃ p ∈ sampleListB, p.toState = sampleEventB.fromState ∧
          p.step + 1 = sampleEventB.step ∧
          d = max ((sampleEventB.timestamp : ℚ) - (p.timestamp : ℚ)) 0 / 86400000000) :=
  ⟨by decide, by decide,
    claim_C1 [sampleIssueB] "Open" "X-1" sampleListB (by decide) sampleEventB (by decide)⟩

/-- Claim C2: for every issue record of an input whose records carry the
unique keys the data model promises, the event list returned for its key
has step indices exactly `0, 1, ..., N-1` with no gaps, where `N` is one
plus the number of `"status"` field changes across all of that issue's
changelog entries (the counter increments once per qualifying change,
not once per changelog entry). -/
theorem claim_C2 (issues : List IssueRecord) (fs : String) (issue : IssueRecord)
    (hmem : issue ∈ issues) (hkeys : (issues.map fun i => i.key).Nodup)
    (l : List TransitionEvent)
    (hl : alistFind (get_transitions issues fs) issue.key = some l) :
    (l.map fun e => e.step) = List.range (1 + statusCount issue.histories) := by
  rw [get_transitions_find, keyResult_eq, filter_key_of_nodup issues issue hkeys hmem,
    if_neg (List.cons_ne_nil _ _)] at hl
  rw [← Option.some.inj hl, keyFold_singleton_step]

theorem claim_C2_witness :
    (sampleIssueB ∈ [sampleIssueB]) ∧
    (([sampleIssueB].map fun i => i.key).Nodup) ∧
    (alistFind (get_transitions [sampleIssueB] "Open") sampleIssueB.key =
      some sampleListB) ∧
    ((sampleListB.map fun e => e.step) =
      List.range (1 + statusCount sampleIssueB.histories)) :=
  ⟨by decide, by decide, by decide,
    claim_C2 [sampleIssueB] "Open" sampleIssueB (by decide) (by decide) sampleListB
      (by decide)⟩

/-- Claim C3: for every issue of a unique-keyed input and every
`first_step_label`, the first event of the list returned for that issue's
key has step 0, `from` the literal `"Create"`, `to` the `first_step`
argument verbatim, the creator's display name as author, the issue's
parsed creation timestamp, and no duration — whatever the changelog
contains. -/
theorem claim_C3 (issues : List IssueRecord) (fs : String) (issue : IssueRecord)
    (hmem : issue ∈ issues) (hkeys : (issues.map fun i => i.key).Nodup)
    (l : List TransitionEvent)
    (hl : alistFind (get_transitions issues fs) issue.key = some l) :
    l.head? = some ⟨issue.creator, issue.created, 0, "Create", fs, none⟩ := by
  rw [get_transitions_find, keyResult_eq, filter_key_of_nodup issues issue hkeys hmem,
    if_neg (List.cons_ne_nil _ _)] at hl
  rw [← Option.some.inj hl, keyFold_singleton, backfill_recordEvents_head]

theorem claim_C3_witness :
    (sampleIssueC ∈ [sampleIssueC]) ∧
    (([sampleIssueC].map fun i => i.key).Nodup) ∧
    (alistFind (get_transitions [sampleIssueC] "Open") sampleIssueC.key =
      some [⟨"Alice", 0, 0, "Create", "Open", none⟩,
            ⟨"Bob", 86400000000, 1, "Weird", "Done", none⟩]) ∧
    (([⟨"Alice", 0, 0, "Create", "Open", none⟩,
       ⟨"Bob", 86400000000, 1, "Weird", "Done", none⟩] :
        List TransitionEvent).head? =
      some ⟨sampleIssueC.creator, sampleIssueC.created, 0, "Create", "Open", none⟩) :=
  ⟨by decide, by decide, by decide,
    claim_C3 [sampleIssueC] "Open" sampleIssueC (by decide) (by decide) _ (by decide)⟩

/-- Claim C4: every duration assigned by `get_transitions` is
non-negative, and whenever the matched predecessor's timestamp is not
earlier than the event's own, the duration is exactly 0 (clamped, never
negative). -/
theorem claim_C4 (issues : List IssueRecord) (fs k : String) (l : List TransitionEvent)
    (hl : (k, l) ∈ get_transitions issues fs) (e : TransitionEvent) (he : e ∈ l)
    (d : ℚ) (hd : e.duration = some d) :
    0 ≤ d ∧ ∃ p ∈ l, p.toState = e.fromState ∧ p.step + 1 = e.step ∧
      d = max ((e.timestamp : ℚ) - (p.timestamp : ℚ)) 0 / 86400000000 ∧
      (e.timestamp ≤ p.timestamp → d = 0) := by
  have hOK := get_transitions_durOK issues fs k l hl e he
  rcases hOK.1 d hd with ⟨p, hp, h1, h2, h3⟩
  refine ⟨h3 ▸ durationDays_nonneg _ _, p, hp, h1, h2, ?_, ?_⟩
  · rw [h3, durationDays_eq_max]
  · intro hle
    rw [h3, durationDays_clamp _ _ hle]

theorem claim_C4_witness :
    (("X-1", sampleListSkew) ∈ get_transitions [sampleIssueSkew] "Open") ∧
    (sampleEventSkew ∈ sampleListSkew) ∧
    (sampleEventSkew.duration = some 0) ∧
    (0 ≤ (0 : ℚ) ∧ ∃ p ∈ sampleListSkew,
      p.toState = sampleEventSkew.fromState ∧ p.step + 1 = sampleEventSkew.step ∧
      (0 : ℚ) = max ((sampleEventSkew.timestamp : ℚ) - (p.timestamp : ℚ)) 0 / 86400000000 ∧
      (sampleEventSkew.timestamp ≤ p.timestamp → (0 : ℚ) = 0)) :=
  ⟨by decide, by decide, by decide,
    claim_C4 [sampleIssueSkew] "Open" "X-1" sampleListSkew (by decide) sampleEventSkew
      (by decide) 0 (by decide)⟩

/-- Claim C5: an event whose matching predecessor cannot be found — no
event `P` with `P.to = E.from` and `P.step = E.step - 1`, e.g. the step-0
event, or a status change whose `fromString` matches no prior event's
`to` at the correct step — is left without a duration, and well-formed
input never makes `get_transitions` raise, whatever the matching
structure: on any issues whose required fields are present and parseable
the raw-layer call returns a result. -/
theorem claim_C5 (parse : String → Option ℤ) (issues : List RawIssueRecord) (fs : String)
    (hok : ∀ i ∈ issues, issueOK parse i) :
    ∃ m, get_transitionsRaw parse issues fs = some m ∧
      ∀ k l, (k, l) ∈ m → ∀ e ∈ l,
        (¬∃ p ∈ l, p.toState = e.fromState ∧ p.step + 1 = e.step) → e.duration = none := by
  refine ⟨_, get_transitionsRaw_eq_some parse issues fs hok, ?_⟩
  intro k l hmem e he hno
  have hOK := get_transitions_durOK _ fs k l hmem e he
  cases hd : e.duration with
  | none => rfl
  | some d =>
    rcases hOK.1 d hd with ⟨p, hp, h1, h2, _⟩
    exact absurd ⟨p, hp, h1, h2⟩ hno

theorem claim_C5_witness :
    (∀ i ∈ [sampleRawOrphan], issueOK parseTs i) ∧
    (∃ m, get_transitionsRaw parseTs [sampleRawOrphan] "Open" = some m ∧
      ∀ k l, (k, l) ∈ m → ∀ e ∈ l,
        (¬∃ p ∈ l, p.toState = e.fromState ∧ p.step + 1 = e.step) → e.duration = none) :=
  ⟨by decide, claim_C5 parseTs [sampleRawOrphan] "Open" (by decide)⟩

/-- Claim C6: on a unique-keyed input the mapping returned by
`get_transitions` binds each distinct input key exactly once and nothing
else; each bound list is non-empty (at least the synthetic step-0 event)
and its step indices are in strictly ascending order; and zero input
issues yield the empty mapping. -/
theorem claim_C6 (issues : List IssueRecord) (fs : String)
    (hkeys : (issues.map fun i => i.key).Nodup) :
    ((get_transitions issues fs).map Prod.fst).Nodup ∧
    (∀ k, (alistFind (get_transitions issues fs) k).isSome ↔
      k ∈ issues.map fun i => i.key) ∧
    (∀ k l, (k, l) ∈ get_transitions issues fs → l ≠ [] ∧
      List.Sorted (· < ·) (l.map fun e => e.step)) ∧
    get_transitions [] fs = [] := by
  refine ⟨get_transitions_nodup_keys issues fs, ?_, ?_, rfl⟩
  · intro k
    rw [get_transitions_find, keyResult_eq]
    by_cases hp : issues.filter (fun i => i.key == k) = []
    · simp only [if_pos hp, Option.isSome_none, Bool.false_eq_true, false_iff]
      intro hk
      rcases List.mem_map.mp hk with ⟨i, hi, rfl⟩
      rw [List.filter_eq_nil_iff] at hp
      exact hp i hi (by simp)
    · simp only [if_neg hp, Option.isSome_some, true_iff]
      rcases List.exists_mem_of_ne_nil _ hp with ⟨i, hi⟩
      rcases List.mem_filter.mp hi with ⟨hmem, hkey⟩
      rw [beq_iff_eq] at hkey
      exact hkey ▸ List.mem_map.mpr ⟨i, hmem, rfl⟩
  · intro k l hmem
    rcases get_transitions_value issues fs k l hmem with ⟨rfl, hne⟩
    rcases List.exists_mem_of_ne_nil _ hne with ⟨i, hi⟩
    rcases List.mem_filter.mp hi with ⟨hmemi, hkey⟩
    rw [beq_iff_eq] at hkey
    have hfeq : issues.filter (fun j => j.key == k) = [i] := by
      rw [← hkey]
      exact filter_key_of_nodup issues i hkeys hmemi
    rw [hfeq]
    constructor
    · rw [keyFold_singleton, recordEvents, backfill]
      simp
    · rw [keyFold_singleton_step]
      exact List.pairwise_lt_range _

theorem claim_C6_witness :
    (([sampleIssueB].map fun i => i.key).Nodup) ∧
    (((get_transitions [sampleIssueB] "Open").map Prod.fst).Nodup ∧
      (∀ k, (alistFind (get_transitions [sampleIssueB] "Open") k).isSome ↔
        k ∈ [sampleIssueB].map fun i => i.key) ∧
      (∀ k l, (k, l) ∈ get_transitions [sampleIssueB] "Open" → l ≠ [] ∧
        List.Sorted (· < ·) (l.map fun e => e.step)) ∧
      get_transitions [] "Open" = []) :=
  ⟨by decide, claim_C6 [sampleIssueB] "Open" (by decide)⟩

/-- Claim C7: `get_transitions` is deterministic and idempotent with
respect to hidden state: the method leaves its instance unchanged (it
builds a fresh result dict per call and reads no mutable global or
instance state), so calling it twice with the same arguments — the second
time on the instance state left by the first call — returns identical
mappings. -/
theorem claim_C7 (api : JiraAPI) (issues : List IssueRecord) (fs : String) :
    (api.get_transitions_call issues fs).1 = api ∧
    ((api.get_transitions_call issues fs).1.get_transitions_call issues fs).2 =
      (api.get_transitions_call issues fs).2 :=
  ⟨rfl, rfl⟩

/-- Claim C8 counterexample: the claim says *any* unparseable changelog
timestamp makes `get_transitions` raise, but the code reads a changelog
entry's timestamp only when the entry contains a `"status"` item:
`sampleRawBadEntry`'s only entry has an unparseable timestamp and no
`"status"` item, and the call succeeds. -/
theorem claim_C8_counterexample :
    parseTs "not-a-timestamp" = none ∧
    (∃ c ∈ sampleRawBadEntry.histories, parseTs c.created = none) ∧
    get_transitionsRaw parseTs [sampleRawBadEntry] "Open" =
      some [("X-1", [⟨"Alice", 1704067200000000, 0, "Create", "Open", none⟩])] :=
  ⟨by decide, by decide, by decide⟩

/-- Claim C8 as amended: if any input issue has a missing creator display
name or an unparseable creation timestamp, or a changelog entry that
contains at least one `"status"` field change and has a missing author
display name or an unparseable timestamp, then `get_transitions` raises
an error that propagates to the caller (no value is fabricated); an
unparseable timestamp or missing author on an entry with no status
change is never read and does not raise. -/
theorem claim_C8_amended (parse : String → Option ℤ) (issues : List RawIssueRecord)
    (fs : String) (hex : ∃ i ∈ issues, issueBad parse i) :
    get_transitionsRaw parse issues fs = none :=
  get_transitionsRaw_none parse issues fs hex

theorem claim_C8_witness :
    (∃ i ∈ [sampleRawNoCreator], issueBad parseTs i) ∧
    get_transitionsRaw parseTs [sampleRawNoCreator] "Open" = none :=
  ⟨by decide, claim_C8_amended parseTs [sampleRawNoCreator] "Open" (by decide)⟩

/-- Claim C9: when several input records share one key, the single list
bound to that key is the concatenation, in encounter order, of the events
of every record with that key: a step-0 `"Create"` event is emitted once
per record and the status-change counter restarts at 1 for each record,
so the combined list repeats step indices and is not contiguously
numbered (only durations may differ from the plain concatenation, which
is what the `skel` projection ignores). -/
theorem claim_C9 (issues : List IssueRecord) (fs k : String) (l : List TransitionEvent)
    (hl : (k, l) ∈ get_transitions issues fs) :
    l.map skel =
      (issues.filter (fun i => i.key == k)).flatMap
        (fun i => (recordEvents i fs).map skel) ∧
    (l.map fun e => e.step) =
      (issues.filter (fun i => i.key == k)).flatMap
        (fun i => List.range (1 + statusCount i.histories)) := by
  rcases get_transitions_value issues fs k l hl with ⟨rfl, _⟩
  exact ⟨keyFold_skel fs _, keyFold_step fs _⟩

theorem claim_C9_witness :
    (("X-1", sampleListDup) ∈ get_transitions [sampleIssueA, sampleDupRecord] "Open") ∧
    ((sampleListDup.map fun e => e.step) = [0, 0]) ∧
    (sampleListDup.map skel =
      ([sampleIssueA, sampleDupRecord].filter (fun i => i.key == "X-1")).flatMap
        (fun i => (recordEvents i "Open").map skel) ∧
    (sampleListDup.map fun e => e.step) =
      ([sampleIssueA, sampleDupRecord].filter (fun i => i.key == "X-1")).flatMap
        (fun i => List.range (1 + statusCount i.histories))) :=
  ⟨by decide, by decide,
    claim_C9 [sampleIssueA, sampleDupRecord] "Open" "X-1" sampleListDup (by decide)⟩

/-- Claim C10: `get_transitions` does not mutate its input: the source
only reads the issue records (there is no assignment into `issues` or
anything reached from it; the only writes target the fresh `results`
dict and the freshly built event dicts inside it), so the embedded
call returns alongside an unchanged input sequence, records, changelog
entries and field-change items included. -/
theorem claim_C10 (issues : List IssueRecord) (fs : String) :
    (get_transitions_frame issues fs).1 = issues ∧
    (get_transitions_frame issues fs).2 = get_transitions issues fs :=
  ⟨rfl, rfl⟩
